import Mathlib

/-!
# calendar-bot: ingestion pipeline of `main.go`

A shallow embedding of the parts of `main.go` that decide what a poll cycle does:
the processed-id log (`loadProcessedIDs`), MIME body extraction
(`extractEmailBody`, `traverseParts`, `decodeBody`), time normalisation
(`parseToEastern`) and the per-message loop of `checkInbox`.

Go strings are byte sequences, so they are lists of bytes here.  Calls that leave
the process (Gmail, the completion API, the calendar API) and library code that
is not part of the repository (the `dateparse` parsers, the JSON decoder, the
time-zone database) are fields of `World`.
-/

namespace CalendarBot

/-! ## Go strings -/

abbrev Byte := Fin 256

/-- A Go `string`: an immutable sequence of bytes. -/
abbrev GoString := List Byte

/-- Bytes of a string literal of the program; all literals used are ASCII, one byte per character. -/
def lit (s : String) : GoString := s.toList.map (fun c => Fin.ofNat c.toNat)

/-- Go `strings.HasPrefix(s, p)`. -/
def hasPrefix : GoString → GoString → Bool
  | _, [] => true
  | [], _ :: _ => false
  | c :: s, d :: p => c == d && hasPrefix s p

/-- Go `strings.Contains(s, substr)`. -/
def stringsContains : GoString → GoString → Bool
  | [], sub => sub.isEmpty
  | c :: s, sub => hasPrefix (c :: s) sub || stringsContains s sub

/-! ## `encoding/base64` (padded, non-strict encodings) -/

/-- A base64 encoding with `=` padding: its 64-character alphabet. -/
structure Encoding where
  encode : GoString

/-- Go `base64.StdEncoding`. -/
def StdEncoding : Encoding :=
  ⟨lit "ABCDEFGHIJKLMNOPQRSTUVWXYZabcdefghijklmnopqrstuvwxyz0123456789+/"⟩

/-- Go `base64.URLEncoding`. -/
def URLEncoding : Encoding :=
  ⟨lit "ABCDEFGHIJKLMNOPQRSTUVWXYZabcdefghijklmnopqrstuvwxyz0123456789-_"⟩

/-- The padding character `=`. -/
def padChar : Byte := 61

/-- Position of `c` in an alphabet, counting from `i`. -/
def indexFrom (c : Byte) : List Byte → Nat → Option Nat
  | [], _ => none
  | d :: ds, i => if d = c then some i else indexFrom c ds (i + 1)

/-- The table `enc.decodeMap`: the sextet a character stands for, `none` for `0xff`. -/
def Encoding.decodeMap (enc : Encoding) (c : Byte) : Option Nat :=
  indexFrom c enc.encode 0

/-- The character `enc.encode[v & 0x3F]`. -/
def Encoding.encodeSextet (enc : Encoding) (v : Nat) : Byte :=
  enc.encode.getD (v % 64) 0

/-- Go `enc.EncodeToString(src)`: three bytes become four characters, a final block of one or
two bytes is padded with `=`. -/
def Encoding.EncodeToString (enc : Encoding) : List Byte → GoString
  | b0 :: b1 :: b2 :: rest =>
    let val := b0.val * 65536 + b1.val * 256 + b2.val
    enc.encodeSextet (val / 262144) :: enc.encodeSextet (val / 4096) ::
      enc.encodeSextet (val / 64) :: enc.encodeSextet val :: Encoding.EncodeToString enc rest
  | [b0, b1] =>
    let val := b0.val * 65536 + b1.val * 256
    [enc.encodeSextet (val / 262144), enc.encodeSextet (val / 4096),
      enc.encodeSextet (val / 64), padChar]
  | [b0] =>
    let val := b0.val * 65536
    [enc.encodeSextet (val / 262144), enc.encodeSextet (val / 4096), padChar, padChar]
  | [] => []

/-- The loops `for si < len(src) && (src[si] == '\n' || src[si] == '\r')` of `decodeQuantum`. -/
def skipNewlines : List Byte → List Byte
  | [] => []
  | c :: cs => if c = 10 ∨ c = 13 then skipNewlines cs else c :: cs

/-- The tail of `decodeQuantum`: the `dlen` sextets read are packed into a 24-bit value and the
first `dlen - 1` bytes of it are written. -/
def assemble (dbuf : List Nat) : List Byte :=
  let val := dbuf.getD 0 0 * 262144 + dbuf.getD 1 0 * 4096 + dbuf.getD 2 0 * 64 + dbuf.getD 3 0
  ([Fin.ofNat (val / 65536), Fin.ofNat (val / 256), Fin.ofNat val] : List Byte).take
    (dbuf.length - 1)

/-- Go `enc.Decode` for a padded, non-strict encoding, as repeated `decodeQuantum`: `dbuf` holds
the sextets of the quantum being read.  `\r` and `\n` are skipped anywhere, any other character
outside the alphabet is corrupt input, padding must complete the quantum and end the input.
`none` stands for a `CorruptInputError`. -/
def Encoding.decodeFrom (enc : Encoding) : List Nat → List Byte → Option (List Byte)
  | dbuf, [] => if dbuf.length = 0 then some [] else none
  | dbuf, c :: src =>
    match enc.decodeMap c with
    | some out =>
      if dbuf.length = 3 then
        (Encoding.decodeFrom enc [] src).map (fun tl => assemble (dbuf ++ [out]) ++ tl)
      else Encoding.decodeFrom enc (dbuf ++ [out]) src
    | none =>
      if c = 10 ∨ c = 13 then Encoding.decodeFrom enc dbuf src
      else if c ≠ padChar then none
      else if dbuf.length < 2 then none
      else if dbuf.length = 2 then
        match skipNewlines src with
        | [] => none
        | c2 :: src2 =>
          if c2 ≠ padChar then none
          else if skipNewlines src2 = [] then some (assemble dbuf) else none
      else if skipNewlines src = [] then some (assemble dbuf) else none

/-- Go `enc.DecodeString(s)`; `none` when it returns an error. -/
def Encoding.DecodeString (enc : Encoding) (s : GoString) : Option (List Byte) :=
  enc.decodeFrom [] s

/-! ## Body extraction (`main.go` lines 174-210) -/

/-- The sentinel `decodeBody` returns when both decoders reject the payload. -/
def failedToDecode : GoString := lit "(failed to decode body)"

/-- The sentinel `traverseParts` returns when its loop runs to the end. -/
def noBodyFound : GoString := lit "(no body found)"

/-- Function `decodeBody`: URL-safe base64 first, standard base64 when that fails. -/
def decodeBody (data : GoString) : GoString :=
  match URLEncoding.DecodeString data with
  | some decoded => decoded
  | none =>
    match StdEncoding.DecodeString data with
    | some decoded => decoded
    | none => failedToDecode

/-- Type `gmail.MessagePartBody`, the field the program reads. -/
structure MessagePartBody where
  Data : GoString
deriving DecidableEq

/-- Type `gmail.MessagePart`: the fields the program reads.  `Body` is a pointer the program
tests against `nil`. -/
inductive MessagePart where
  | mk (MimeType : GoString) (Body : Option MessagePartBody) (Parts : List MessagePart)

/-- Field `MimeType`. -/
def MessagePart.MimeType : MessagePart → GoString
  | .mk m _ _ => m

/-- Field `Body`. -/
def MessagePart.Body : MessagePart → Option MessagePartBody
  | .mk _ b _ => b

/-- Field `Parts`. -/
def MessagePart.Parts : MessagePart → List MessagePart
  | .mk _ _ ps => ps

/-- The payload of a part when the test
`part.MimeType == "text/plain" && part.Body != nil && part.Body.Data != ""` succeeds. -/
def plainPayload (mimeType : GoString) (body : Option MessagePartBody) : Option GoString :=
  if mimeType = lit "text/plain" then
    match body with
    | some b => if b.Data ≠ [] then some b.Data else none
    | none => none
  else none

mutual
/-- One pass through the body of the `for` loop of `traverseParts`: `some r` when the body
executes `return r`, `none` when it falls through to the next part. -/
def traversePartsBody : MessagePart → Option GoString
  | .mk mimeType body parts =>
    match plainPayload mimeType body with
    | some data => some (decodeBody data)
    | none =>
      if parts.length > 0 then
        let body := traverseParts parts
        if body ≠ [] then some body else none
      else none
termination_by structural p => p
/-- Function `traverseParts`: the loop over `parts`, and the `return "(no body found)"` after it. -/
def traverseParts : List MessagePart → GoString
  | [] => noBodyFound
  | part :: rest =>
    match traversePartsBody part with
    | some r => r
    | none => traverseParts rest
termination_by structural ps => ps
end

/-- Type `gmail.Message`: `Payload` is a pointer, `nil` is `none`. -/
structure Message where
  Payload : Option MessagePart

/-- Function `extractEmailBody`; `none` is the nil-pointer panic on `msg.Payload.Body` when the message
has no payload. -/
def extractEmailBody (msg : Message) : Option GoString :=
  match msg.Payload with
  | none => none
  | some payload =>
    match payload.Body with
    | some b => if b.Data ≠ [] then some (decodeBody b.Data) else some (traverseParts payload.Parts)
    | none => some (traverseParts payload.Parts)

mutual
/-- A part followed by its descendants, in depth-first pre-order. -/
def preorderPart : MessagePart → List MessagePart
  | .mk mimeType body parts => .mk mimeType body parts :: preorder parts
termination_by structural p => p
/-- All parts of a part list, at any depth, in depth-first pre-order. -/
def preorder : List MessagePart → List MessagePart
  | [] => []
  | part :: rest => preorderPart part ++ preorder rest
termination_by structural ps => ps
end

/-- The payload of a part that is `text/plain` with a non-empty payload. -/
def MessagePart.plainPayload (p : MessagePart) : Option GoString :=
  CalendarBot.plainPayload p.MimeType p.Body

/-- The payload of the first part, in pre-order, that is `text/plain` with a non-empty payload. -/
def firstPlainPayload (parts : List MessagePart) : Option GoString :=
  (preorder parts).findSome? MessagePart.plainPayload

/-! ## The processed-id log (`main.go` lines 44-60) -/

/-- Go `bufio.MaxScanTokenSize`: the largest buffer a `Scanner` allocates. -/
def maxScanTokenSize : Nat := 64 * 1024

/-- Go `dropCR` of `bufio`: one trailing `\r` is removed from a line. -/
def dropCR (data : List Byte) : List Byte :=
  if data.getLast? = some 13 then data.dropLast else data

/-- The tokens successive `scanner.Scan()` / `scanner.Text()` calls yield with the default split
function `bufio.ScanLines`; `line` holds the bytes of the line being read.  A line is ended by
`\n`, a final unterminated non-empty line is a token too.  A line that does not fit, with its
terminator, in a buffer of `maxScanTokenSize` bytes makes `Scan` fail with `ErrTooLong`, which
ends the loop of `loadProcessedIDs` (the error is not inspected). -/
def scanLines : List Byte → List Byte → List GoString
  | line, [] =>
    if line = [] then [] else if maxScanTokenSize ≤ line.length then [] else [dropCR line]
  | line, c :: data =>
    if c = 10 then
      if maxScanTokenSize ≤ line.length then [] else dropCR line :: scanLines [] data
    else scanLines (line ++ [c]) data

/-- Function `loadProcessedIDs`.  The file is `none` when `os.Open` fails; the Go `map[string]bool` is the
function that reads a key (`false` for an absent key). -/
def loadProcessedIDs (file : Option (List Byte)) : GoString → Bool :=
  match file with
  | none => fun _ => false
  | some data =>
    (scanLines [] data).foldl (fun processed id => fun k => if k = id then true else processed k)
      (fun _ => false)

/-- The contents of a log, empty at first, after `f.WriteString(id + "\n")` for each id in order
(line 168 of `main.go`). -/
def recordAll (ids : List GoString) : List Byte :=
  (ids.map (fun id => id ++ [10])).flatten

/-! ## Package `time`: instants, zones and the RFC 3339 layout -/

/-- Go `*time.Location`: the offset, in seconds east of UTC, in force at a Unix time. -/
structure Location where
  lookup : Int → Int

/-- Go `time.Time`: an instant, in nanoseconds since the Unix epoch, and the zone it is shown
in. -/
structure Time where
  unixNano : Int
  loc : Location

/-- Go `t.Unix()`. -/
def Time.unixSec (t : Time) : Int := t.unixNano / 1000000000

/-- The zone offset of `t`, in seconds east of UTC. -/
def Time.offset (t : Time) : Int := t.loc.lookup t.unixSec

/-- Go `t.In(loc)`: the same instant, shown in `loc`. -/
def Time.In (t : Time) (loc : Location) : Time := { t with loc := loc }

/-- Go `time.Hour`, a `Duration` in nanoseconds. -/
def Hour : Int := 3600 * 1000000000

/-- Go `t.Add(d)`. -/
def Time.Add (t : Time) (d : Int) : Time := { t with unixNano := t.unixNano + d }

/-- Year, month and day of the proleptic Gregorian calendar for a day number counted from
1970-01-01. -/
def civilFromDays (days : Int) : Int × Int × Int :=
  let z := days + 719468
  let era := z / 146097
  let doe := z % 146097
  let yoe := (doe - doe / 1460 + doe / 36524 - doe / 146096) / 365
  let doy := doe - (365 * yoe + yoe / 4 - yoe / 100)
  let mp := (5 * doy + 2) / 153
  let d := doy - (153 * mp + 2) / 5 + 1
  let m := if mp < 10 then mp + 3 else mp - 9
  (if m ≤ 2 then yoe + era * 400 + 1 else yoe + era * 400, m, d)

/-- The seconds since the epoch of the wall clock `t` shows in its zone. -/
def Time.abs (t : Time) : Int := t.unixSec + t.offset

/-- Go `t.Month()`. -/
def Time.Month (t : Time) : Int := (civilFromDays (t.abs / 86400)).2.1

/-- Go `t.Day()`. -/
def Time.Day (t : Time) : Int := (civilFromDays (t.abs / 86400)).2.2

/-- Go `t.Hour()`. -/
def Time.Hour (t : Time) : Int := t.abs % 86400 / 3600

/-- Go `t.Minute()`. -/
def Time.Minute (t : Time) : Int := t.abs % 3600 / 60

/-- Go `appendInt` of package `time`: a sign for a negative number, then its decimal digits,
zero-padded to `width`. -/
def appendInt (x : Int) (width : Nat) : GoString :=
  let ds : List Byte := (Nat.toDigits 10 x.natAbs).map (fun c => Fin.ofNat c.toNat)
  (if x < 0 then [45] else []) ++ List.replicate (width - ds.length) 48 ++ ds

/-- The layout `time.RFC3339` (`2006-01-02T15:04:05Z07:00`) applied to the wall clock `abs` and
zone offset `offset`: whole seconds only, `Z` for offset zero. -/
def formatRFC3339 (abs offset : Int) : GoString :=
  let ymd := civilFromDays (abs / 86400)
  let secs := abs % 86400
  let zone := offset.tdiv 60
  appendInt ymd.1 4 ++ [45] ++ appendInt ymd.2.1 2 ++ [45] ++ appendInt ymd.2.2 2 ++ [84] ++
    appendInt (secs / 3600) 2 ++ [58] ++ appendInt (secs % 3600 / 60) 2 ++ [58] ++
    appendInt (secs % 60) 2 ++
    (if offset = 0 then [90]
     else (if zone < 0 then [45] else [43]) ++ appendInt (zone.natAbs / 60) 2 ++ [58] ++
       appendInt (zone.natAbs % 60) 2)

/-- Go `t.Format(time.RFC3339)`. -/
def Time.Format (t : Time) : GoString := formatRFC3339 t.abs t.offset

/-! ## The poll cycle (`main.go` lines 62-172 and 448-458) -/

/-- Type `CalendarEvent`: the draft decoded from the completion, then the event published. -/
structure CalendarEvent where
  Title : GoString
  StartTime : GoString
  EndTime : GoString
  Location : GoString
  Description : GoString
deriving DecidableEq

/-- Everything a cycle reads from outside the program.  A call made once per listed message
takes the position of that message in the listing, so that two calls may answer differently. -/
structure World where
  /-- The ids of `res.Messages`; `none` when a step before the listing is complete ends in
  `log.Fatalf` (credentials, configuration, Gmail service, `req.Do()`). -/
  listMessages : Option (List GoString)
  /-- The bytes of `processed_ids.txt`; `none` when `os.Open` fails. -/
  processedFile : Option (List Byte)
  /-- Whether `os.OpenFile("processed_ids.txt", O_APPEND|O_CREATE|O_WRONLY, 0644)` succeeds. -/
  openLog : Bool
  /-- The call `srv.Users.Messages.Get(user, m.Id).Do()`; `none` is a nil message (the error is
  discarded by the program). -/
  getMessage : Nat → GoString → Option Message
  /-- The call `createCalendarSummary(emailBody)`; `none` when it returns an error, in which case
  the string it returns is empty. -/
  createCalendarSummary : Nat → GoString → Option GoString
  /-- Go `json.Unmarshal` into a zero `CalendarEvent`; `none` when it returns an error. -/
  jsonUnmarshal : GoString → Option CalendarEvent
  /-- Go `time.LoadLocation("America/New_York")`; `none` when it returns an error. -/
  loadLocation : Option Location
  /-- The call `dateparse.ParseIn(t, loc)`; `none` when it returns an error. -/
  ParseIn : GoString → Location → Option Time
  /-- The call `dateparse.ParseLocal(t)`; `none` when it returns an error. -/
  ParseLocal : GoString → Option Time
  /-- The call `createGoogleCalendarEvent(event)`; `true` when it returns a nil error, which it
  does only after `srv.Events.Insert("primary", calendarEvent).Do()` succeeded. -/
  createGoogleCalendarEvent : Nat → CalendarEvent → Bool

/-- Function `parseToEastern`; `none` when it returns an error. -/
def parseToEastern (w : World) (t : GoString) : Option Time :=
  match w.loadLocation with
  | none => none
  | some loc =>
    match w.ParseIn t loc with
    | none => none
    | some parsed => some (parsed.In loc)

/-- The `log.Fatalf` calls inside the loop of `checkInbox`. -/
inductive FatalSite where
  | parseResponse
  | startTime
  | endTime
  | createEvent
deriving DecidableEq

/-- Lines 131-161 of `checkInbox`: the times of the draft are normalised, a missing end time is
derived, empty fields are filled in.  An error is the `log.Fatalf` reached. -/
def buildEvent (w : World) (event : CalendarEvent) : Except FatalSite CalendarEvent :=
  match parseToEastern w event.StartTime with
  | none => .error .startTime
  | some parsedStartTime =>
    let event := { event with StartTime := parsedStartTime.Format }
    let event :=
      if event.EndTime = [] then
        match w.ParseLocal event.StartTime with
        | some start =>
          { event with EndTime := (start.Add Hour).Format, StartTime := start.Format }
        | none => event
      else event
    match parseToEastern w event.EndTime with
    | none => .error .endTime
    | some parsedEndTime =>
      let event := { event with EndTime := parsedEndTime.Format }
      let event := if event.Location = [] then { event with Location := lit "Virtual" } else event
      let event :=
        if event.Description = [] then
          { event with Description := lit "No description provided." }
        else event
      let event :=
        if event.Title = [] then { event with Title := lit "No title provided." } else event
      .ok event

/-- What a cycle does that the outside can see; each carries the position, in the listing, of the
message being handled. -/
inductive Effect where
  /-- The call `createCalendarSummary(emailBody)`. -/
  | completion (i : Nat) (emailBody : GoString)
  /-- The call `createGoogleCalendarEvent(event)`, and whether it returned a nil error. -/
  | publish (i : Nat) (event : CalendarEvent) (ok : Bool)
  /-- The call `f.WriteString(m.Id + "\n")`, with `id` the value of `m.Id`; a failure of the
  write is logged and changes nothing else. -/
  | append (i : Nat) (id : GoString)
deriving DecidableEq

/-- The position of the message an effect belongs to. -/
def Effect.index : Effect → Nat
  | .completion i _ => i
  | .publish i _ _ => i
  | .append i _ => i

/-- How a cycle ends. -/
inductive Exit where
  /-- The function `checkInbox` returns to `main`. -/
  | returned
  /-- A `log.Fatalf` before the loop ends the process. -/
  | setupFailed
  /-- A `log.Fatalf` while handling the message at position `i` ends the process. -/
  | fatal (i : Nat) (site : FatalSite)
  /-- A nil dereference in `extractEmailBody` for the message at position `i`. -/
  | panicked (i : Nat)
deriving DecidableEq

/-- The literal tested at line 112. -/
def declineMarker : GoString := lit "Email Body: Alex Boden has declined this invitation."

/-- The body of the loop of `checkInbox` after the `processed[m.Id]` test (lines 107-170), for the
message `id` at position `i`: its effects, and `some` exit when the process ends there, `none`
when the loop goes on to the next message. -/
def processMessage (w : World) (i : Nat) (id : GoString) : List Effect × Option Exit :=
  match w.getMessage i id with
  | none => ([], some (.panicked i))
  | some msg =>
    match extractEmailBody msg with
    | none => ([], some (.panicked i))
    | some emailBody =>
      if stringsContains emailBody declineMarker then ([], none)
      else
        let gptResponse := (w.createCalendarSummary i emailBody).getD []
        match w.jsonUnmarshal gptResponse with
        | none => ([.completion i emailBody], some (.fatal i .parseResponse))
        | some event =>
          match buildEvent w event with
          | .error site => ([.completion i emailBody], some (.fatal i site))
          | .ok event =>
            if w.createGoogleCalendarEvent i event then
              ([.completion i emailBody, .publish i event true, .append i id], none)
            else
              ([.completion i emailBody, .publish i event false], some (.fatal i .createEvent))

/-- The loop `for _, m := range res.Messages` of `checkInbox`, from position `i` on. -/
def checkInboxLoop (w : World) (processed : GoString → Bool) :
    Nat → List GoString → List Effect × Exit
  | _, [] => ([], .returned)
  | i, id :: rest =>
    if processed id then checkInboxLoop w processed (i + 1) rest
    else
      match processMessage w i id with
      | (effects, some exit) => (effects, exit)
      | (effects, none) =>
        let r := checkInboxLoop w processed (i + 1) rest
        (effects ++ r.1, r.2)

/-- Function `checkInbox`: one cycle; the processed ids are loaded once, before the loop. -/
def checkInbox (w : World) : List Effect × Exit :=
  match w.listMessages with
  | none => ([], .setupFailed)
  | some ids =>
    let processed := loadProcessedIDs w.processedFile
    if w.openLog then checkInboxLoop w processed 0 ids else ([], .setupFailed)

/-- The ids a trace appends to the log, in order. -/
def appendedIds : List Effect → List GoString
  | [] => []
  | .append _ id :: rest => id :: appendedIds rest
  | _ :: rest => appendedIds rest

/-! ## Notions used to state the properties, and sample inputs -/

/-- An encoding whose decode table inverts its alphabet. -/
def Encoding.Inverts (enc : Encoding) : Prop :=
  ∀ v : Fin 64, enc.decodeMap (enc.encodeSextet v.val) = some v.val

/-- A character the decoder does not reject on sight. -/
def Encoding.Accepts (enc : Encoding) (c : Byte) : Prop :=
  (enc.decodeMap c).isSome ∨ (c = 10 ∨ c = 13) ∨ c = padChar

/-- An id the line-oriented log can hold: no line feed inside, no carriage return at the end,
and short enough for the scanner buffer. -/
def Storable (id : GoString) : Prop :=
  (10 : Byte) ∉ id ∧ id.getLast? ≠ some 13 ∧ id.length < maxScanTokenSize

instance : DecidablePred Storable := fun id => by unfold Storable; infer_instance

/-- The start and end time strings of the draft after lines 135-144: the start time rendered,
and the end time derived from it when the draft has none. -/
def midTimes (w : World) (draft : CalendarEvent) (T : Time) : GoString × GoString :=
  if draft.EndTime = [] then
    match w.ParseLocal T.Format with
    | some start => (start.Format, (start.Add Hour).Format)
    | none => (T.Format, [])
  else (T.Format, draft.EndTime)

/-- A message whose first top-level part is a `multipart/alternative` holding only `text/html`,
followed by a `text/plain` part with payload. -/
def nestedHtmlThenPlain : Message :=
  ⟨some (.mk (lit "multipart/mixed") none
    [.mk (lit "multipart/alternative") none
        [.mk (lit "text/html") (some ⟨lit "PGI-aGk8L2I-"⟩) []],
      .mk (lit "text/plain") (some ⟨lit "aGk="⟩) []])⟩

/-- The New York zone during 2024: daylight time from 2024-03-10 07:00 UTC to
2024-11-03 06:00 UTC, standard time otherwise. -/
def newYork2024 : Location :=
  ⟨fun u => if 1710054000 ≤ u ∧ u < 1730613600 then -14400 else -18000⟩

/-- A reader of the two timestamps of the end-time example, standing in for `dateparse`. -/
def readExample (s : GoString) (loc : Location) : Option Time :=
  if s = lit "2024-06-01T15:00:00-04:00" then some ⟨1717268400000000000, loc⟩
  else if s = lit "2024-06-01T16:00:00-04:00" then some ⟨1717272000000000000, loc⟩
  else none

/-- A message whose top-level body is the decline marker. -/
def declinedMessage : Message :=
  ⟨some (.mk (lit "text/plain") (some ⟨URLEncoding.EncodeToString declineMarker⟩) [])⟩

/-- A message with the single part `text/plain`, payload `hi`. -/
def inviteMessage : Message :=
  ⟨some (.mk (lit "multipart/mixed") none [.mk (lit "text/plain") (some ⟨lit "aGk="⟩) []])⟩

/-- A cycle over three listed messages: the first already processed, the second a declined
invitation, the third an invitation whose draft has a start time only. -/
def exampleWorld : World where
  listMessages := some [lit "18f0a", lit "18f0b", lit "18f0c"]
  processedFile := some (recordAll [lit "18f0a"])
  openLog := true
  getMessage := fun _ id => if id = lit "18f0b" then some declinedMessage else some inviteMessage
  createCalendarSummary := fun _ _ => some (lit "draft")
  jsonUnmarshal := fun s =>
    if s = lit "draft" then some ⟨[], lit "2024-06-01T15:00:00-04:00", [], [], []⟩ else none
  loadLocation := some newYork2024
  ParseIn := readExample
  ParseLocal := fun s => readExample s ⟨fun _ => -14400⟩
  createGoogleCalendarEvent := fun _ _ => true

/-- The same cycle with a calendar API that refuses the event. -/
def exampleWorldPublishFails : World :=
  { exampleWorld with createGoogleCalendarEvent := fun _ _ => false }

/-- The America/New_York zone at the instants used here: local mean time, 4:56:02 behind UTC,
until 1883-11-18 17:00 UTC; standard time afterwards, with the daylight time of 2024 (that of
other years is left out). -/
def newYork : Location :=
  ⟨fun u => if u < -2717650800 then -17762 else newYork2024.lookup u⟩

/-- What the time-zone database says of the offsets of America/New_York: local mean time
-4:56:02 before 1883-11-18 17:00 UTC, and -5:00 or -4:00 from then on. -/
def NewYorkZone (ny : Location) : Prop :=
  ∀ u : Int, (u < -2717650800 → ny.lookup u = -17762) ∧
    (-2717650800 ≤ u → ny.lookup u = -18000 ∨ ny.lookup u = -14400)

/-- The cycle of `exampleWorld` with a draft whose start time is `March 5 3pm`, and the answers
the libraries give on the strings this draft leads to: `dateparse` fills in no year, so
`March 5 3pm` is 15:00:00 on March 5 of year 0 in New York local mean time; an RFC 3339 string is
read at the offset it shows, in a fixed zone of that offset. -/
def yearZeroWorld : World :=
  { exampleWorld with
    loadLocation := some newYork
    jsonUnmarshal := fun s =>
      if s = lit "draft" then some ⟨[], lit "March 5 3pm", [], [], []⟩ else none
    ParseIn := fun s loc =>
      if s = lit "March 5 3pm" then some ⟨-62161617838000000000, loc⟩
      else if s = lit "0000-03-05T16:00:00-04:56" then
        some ⟨-62161614240000000000, ⟨fun _ => -17760⟩⟩
      else none
    ParseLocal := fun s =>
      if s = lit "0000-03-05T15:00:00-04:56" then
        some ⟨-62161617840000000000, ⟨fun _ => -17760⟩⟩
      else none }

/-! ## Base64: decoding inverts encoding -/

theorem URLEncoding_inverts : URLEncoding.Inverts := by
  unfold Encoding.Inverts; decide

theorem StdEncoding_inverts : StdEncoding.Inverts := by
  unfold Encoding.Inverts; decide

theorem Encoding.Inverts.decodeMap_encodeSextet {enc : Encoding} (h : enc.Inverts) (v : Nat) :
    enc.decodeMap (enc.encodeSextet v) = some (v % 64) := by
  have := h ⟨v % 64, Nat.mod_lt _ (by norm_num)⟩
  simpa [Encoding.encodeSextet] using this

theorem assemble_four (b0 b1 b2 : Byte) :
    assemble [(b0.val * 65536 + b1.val * 256 + b2.val) / 262144 % 64,
      (b0.val * 65536 + b1.val * 256 + b2.val) / 4096 % 64,
      (b0.val * 65536 + b1.val * 256 + b2.val) / 64 % 64,
      (b0.val * 65536 + b1.val * 256 + b2.val) % 64] = [b0, b1, b2] := by
  have h0 := b0.isLt
  have h1 := b1.isLt
  have h2 := b2.isLt
  simp only [assemble, List.getD_cons_zero, List.getD_cons_succ, List.length_cons,
    List.length_nil, List.take, Nat.reduceAdd, Nat.add_one_sub_one]
  refine List.cons_eq_cons.mpr ⟨Fin.ext ?_, List.cons_eq_cons.mpr ⟨Fin.ext ?_,
    List.cons_eq_cons.mpr ⟨Fin.ext ?_, rfl⟩⟩⟩ <;> simp only [Fin.ofNat, Fin.val_mk] <;> omega

theorem assemble_three (b0 b1 : Byte) :
    assemble [(b0.val * 65536 + b1.val * 256) / 262144 % 64,
      (b0.val * 65536 + b1.val * 256) / 4096 % 64,
      (b0.val * 65536 + b1.val * 256) / 64 % 64] = [b0, b1] := by
  have h0 := b0.isLt
  have h1 := b1.isLt
  simp only [assemble, List.getD_cons_zero, List.getD_cons_succ, List.length_cons,
    List.length_nil, List.take, Nat.reduceAdd, Nat.add_one_sub_one, List.getD_nil]
  refine List.cons_eq_cons.mpr ⟨Fin.ext ?_, List.cons_eq_cons.mpr ⟨Fin.ext ?_, rfl⟩⟩ <;>
    simp only [Fin.ofNat, Fin.val_mk] <;> omega

theorem assemble_two (b0 : Byte) :
    assemble [(b0.val * 65536) / 262144 % 64, (b0.val * 65536) / 4096 % 64] = [b0] := by
  have h0 := b0.isLt
  simp only [assemble, List.getD_cons_zero, List.getD_cons_succ, List.length_cons,
    List.length_nil, List.take, Nat.reduceAdd, Nat.add_one_sub_one, List.getD_nil]
  refine List.cons_eq_cons.mpr ⟨Fin.ext ?_, rfl⟩
  simp only [Fin.ofNat, Fin.val_mk]; omega

theorem decodeMap_padChar_url : URLEncoding.decodeMap padChar = none := by decide
theorem decodeMap_padChar_std : StdEncoding.decodeMap padChar = none := by decide

/-- Decoding inverts encoding, for an alphabet without the padding character. -/
theorem Encoding.Inverts.decode_encode {enc : Encoding} (h : enc.Inverts)
    (hp : enc.decodeMap padChar = none) :
    ∀ b : List Byte, enc.decodeFrom [] (enc.EncodeToString b) = some b
  | b0 :: b1 :: b2 :: rest => by
    have ih := Encoding.Inverts.decode_encode h hp rest
    simp only [Encoding.EncodeToString, Encoding.decodeFrom, h.decodeMap_encodeSextet,
      List.length_nil, List.nil_append, List.length_cons, List.cons_append, ih]
    simp [assemble_four]
  | [b0, b1] => by
    simp only [Encoding.EncodeToString, Encoding.decodeFrom, h.decodeMap_encodeSextet,
      List.length_nil, List.nil_append, List.length_cons, List.cons_append, hp]
    simp [padChar, skipNewlines, assemble_three]
  | [b0] => by
    simp only [Encoding.EncodeToString, Encoding.decodeFrom, h.decodeMap_encodeSextet,
      List.length_nil, List.nil_append, List.length_cons, List.cons_append, hp]
    simp [padChar, skipNewlines, assemble_two]
  | [] => by simp [Encoding.EncodeToString, Encoding.decodeFrom]

theorem skipNewlines_eq_nil {s : List Byte} (h : skipNewlines s = []) :
    ∀ c ∈ s, c = 10 ∨ c = 13 := by
  induction s with
  | nil => simp
  | cons a s ih =>
    simp only [skipNewlines] at h
    split at h
    · intro c hc
      rcases List.mem_cons.mp hc with rfl | hc
      · assumption
      · exact ih h c hc
    · simp at h

theorem skipNewlines_eq_cons {s : List Byte} {c2 : Byte} {s2 : List Byte}
    (h : skipNewlines s = c2 :: s2) : ∀ c ∈ s, (c = 10 ∨ c = 13) ∨ c = c2 ∨ c ∈ s2 := by
  induction s with
  | nil => simp
  | cons a s ih =>
    simp only [skipNewlines] at h
    split at h
    · intro c hc
      rcases List.mem_cons.mp hc with rfl | hc
      · left; assumption
      · exact ih h c hc
    · intro c hc
      obtain ⟨rfl, rfl⟩ := List.cons_eq_cons.mp h
      rcases List.mem_cons.mp hc with rfl | hc
      · right; left; rfl
      · right; right; exact hc

theorem Encoding.decodeFrom_accepts (enc : Encoding) :
    ∀ (s : List Byte) (dbuf : List Nat) (d : List Byte),
      enc.decodeFrom dbuf s = some d → ∀ c ∈ s, enc.Accepts c := by
  intro s
  induction s with
  | nil => simp
  | cons a s ih =>
    intro dbuf d h c hc
    rw [Encoding.decodeFrom] at h
    split at h
    · rename_i out hout
      rcases List.mem_cons.mp hc with rfl | hc
      · left; simp [hout]
      · split at h
        · cases hrec : enc.decodeFrom [] s with
          | none => simp [hrec] at h
          | some tl => exact ih _ _ hrec c hc
        · exact ih _ _ h c hc
    · rename_i hnone
      split at h
      · rename_i hnl
        rcases List.mem_cons.mp hc with rfl | hc
        · right; left; exact hnl
        · exact ih _ _ h c hc
      · split at h
        · simp at h
        · rename_i hpad
          have hpad : a = padChar := by simpa using hpad
          split at h
          · simp at h
          · rcases List.mem_cons.mp hc with rfl | hc
            · right; right; exact hpad
            · split at h
              · split at h
                · simp at h
                · rename_i c2 src2 hskip
                  split at h
                  · simp at h
                  · rename_i hc2
                    have hc2 : c2 = padChar := by simpa using hc2
                    split at h
                    · rename_i hskip2
                      rcases skipNewlines_eq_cons hskip c hc with hn | rfl | hm
                      · right; left; exact hn
                      · right; right; exact hc2
                      · right; left; exact skipNewlines_eq_nil hskip2 c hm
                    · simp at h
              · split at h
                · rename_i hskip
                  right; left; exact skipNewlines_eq_nil hskip c hc
                · simp at h

theorem Encoding.decodeFrom_congr (e1 e2 : Encoding) :
    ∀ (s : List Byte) (dbuf : List Nat), (∀ c ∈ s, e1.decodeMap c = e2.decodeMap c) →
      e1.decodeFrom dbuf s = e2.decodeFrom dbuf s := by
  intro s
  induction s with
  | nil => intro dbuf _; simp [Encoding.decodeFrom]
  | cons a s ih =>
    intro dbuf h
    have ha := h a (List.mem_cons_self _ _)
    have hs : ∀ c ∈ s, e1.decodeMap c = e2.decodeMap c :=
      fun c hc => h c (List.mem_cons_of_mem _ hc)
    rw [Encoding.decodeFrom, Encoding.decodeFrom, ha, ih _ hs, ih _ hs]
    cases e2.decodeMap a with
    | none => rfl
    | some out => simp only [ih _ hs]

/-- Where the URL-safe decoder does not reject a character of the standard alphabet (or the
padding), both decode tables agree on it. -/
theorem decodeMap_agree : ∀ c : Byte, URLEncoding.Accepts c →
    ((StdEncoding.decodeMap c).isSome ∨ c = padChar) →
    URLEncoding.decodeMap c = StdEncoding.decodeMap c := by
  unfold Encoding.Accepts
  set_option maxRecDepth 100000 in decide

/-! ## Body extraction -/

mutual
theorem traversePartsBody_of_no_plain : ∀ p : MessagePart,
    (∀ q ∈ preorderPart p, q.plainPayload = none) →
      traversePartsBody p = none ∨ traversePartsBody p = some noBodyFound
  | .mk mimeType body parts => by
    intro h
    have h0 : plainPayload mimeType body = none := by
      have := h (.mk mimeType body parts) (by simp [preorderPart])
      simpa [MessagePart.plainPayload, MessagePart.MimeType, MessagePart.Body] using this
    have hrec := traverseParts_of_no_plain parts
      (fun q hq => h q (by simp [preorderPart, hq]))
    simp only [traversePartsBody, h0, hrec]
    split
    · right; simp [noBodyFound, lit]
    · left; rfl
theorem traverseParts_of_no_plain : ∀ ps : List MessagePart,
    (∀ q ∈ preorder ps, q.plainPayload = none) → traverseParts ps = noBodyFound
  | [] => by intro _; simp [traverseParts]
  | part :: rest => by
    intro h
    have h1 := traversePartsBody_of_no_plain part (fun q hq => h q (by simp [preorder, hq]))
    have h2 := traverseParts_of_no_plain rest (fun q hq => h q (by simp [preorder, hq]))
    rcases h1 with h1 | h1 <;> simp [traverseParts, h1, h2]
end

/-- Claim C3: a message with a payload but no top-level body, none of whose parts at any depth
is `text/plain` with a non-empty payload, has body `"(no body found)"`; this covers the empty
part list. -/
theorem extractEmailBody_no_plain (msg : Message) (payload : MessagePart)
    (hpayload : msg.Payload = some payload)
    (hbody : ∀ b, payload.Body = some b → b.Data = [])
    (hparts : ∀ q ∈ preorder payload.Parts, q.plainPayload = none) :
    extractEmailBody msg = some noBodyFound := by
  have h := traverseParts_of_no_plain payload.Parts hparts
  unfold extractEmailBody
  rw [hpayload]
  cases hb : payload.Body with
  | none => simp only [hb, h]
  | some b => simp only [hb, hbody b hb, h, ne_eq, not_true_eq_false, if_false]

theorem extractEmailBody_no_plain_witness :
    extractEmailBody ⟨some (.mk (lit "multipart/mixed") (some ⟨[]⟩)
        [.mk (lit "text/html") (some ⟨lit "aGk="⟩) [.mk (lit "text/plain") none []]])⟩
      = some noBodyFound :=
  extractEmailBody_no_plain _ _ rfl (by decide) (by decide)

/-- Claim C2, at the shape the claim names: the first `text/plain` part with payload, in
pre-order, is the second top-level part and its payload decodes to `hi`, yet `extractEmailBody`
returns `"(no body found)"`, the result of the nested search of the first part. -/
theorem extractEmailBody_nested_html_then_plain :
    (∃ payload, nestedHtmlThenPlain.Payload = some payload ∧ payload.Body = none ∧
      firstPlainPayload payload.Parts = some (lit "aGk=")) ∧
    decodeBody (lit "aGk=") = lit "hi" ∧
    extractEmailBody nestedHtmlThenPlain = some noBodyFound ∧
    extractEmailBody nestedHtmlThenPlain ≠ some (decodeBody (lit "aGk=")) := by
  refine ⟨⟨_, rfl, rfl, by decide⟩, by decide, by decide, by decide⟩

/-! ## The processed-id log -/

theorem scanLines_append_line (id : List Byte) (hnl : (10 : Byte) ∉ id) :
    ∀ (line rest : List Byte), (line ++ id).length < maxScanTokenSize →
      scanLines line (id ++ 10 :: rest) = dropCR (line ++ id) :: scanLines [] rest := by
  induction id with
  | nil =>
    intro line rest hlen
    have : ¬ maxScanTokenSize ≤ line.length := by simpa using hlen
    simp [scanLines, this]
  | cons c id ih =>
    intro line rest hlen
    have hc : c ≠ 10 := fun h => hnl (by simp [h])
    have hid : (10 : Byte) ∉ id := fun h => hnl (List.mem_cons_of_mem _ h)
    have := ih hid (line ++ [c]) rest (by simpa using hlen)
    simpa [scanLines, hc] using this

theorem scanLines_long_line (id : List Byte) (hnl : (10 : Byte) ∉ id) :
    ∀ (line rest : List Byte), maxScanTokenSize ≤ (line ++ id).length →
      scanLines line (id ++ 10 :: rest) = [] := by
  induction id with
  | nil =>
    intro line rest hlen
    have : maxScanTokenSize ≤ line.length := by simpa using hlen
    simp [scanLines, this]
  | cons c id ih =>
    intro line rest hlen
    have hc : c ≠ 10 := fun h => hnl (by simp [h])
    have hid : (10 : Byte) ∉ id := fun h => hnl (List.mem_cons_of_mem _ h)
    have := ih hid (line ++ [c]) rest (by simpa using hlen)
    simpa [scanLines, hc] using this

theorem scanLines_recordAll (ids : List GoString) (h : ∀ id ∈ ids, Storable id) :
    scanLines [] (recordAll ids) = ids := by
  induction ids with
  | nil => simp [recordAll, scanLines]
  | cons id ids ih =>
    obtain ⟨hnl, hcr, hlen⟩ := h id (List.mem_cons_self _ _)
    have ih := ih (fun x hx => h x (List.mem_cons_of_mem _ hx))
    have hstep := scanLines_append_line id hnl [] (recordAll ids) (by simpa using hlen)
    have hrec : recordAll (id :: ids) = id ++ 10 :: recordAll ids := by
      simp [recordAll]
    rw [hrec, hstep, ih]
    simp [dropCR, hcr]

theorem foldl_insert_apply (l : List GoString) (init : GoString → Bool) (k : GoString) :
    (l.foldl (fun processed id => fun k => if k = id then true else processed k) init) k = true ↔
      init k = true ∨ k ∈ l := by
  induction l generalizing init with
  | nil => simp
  | cons a l ih =>
    rw [List.foldl_cons, ih]
    by_cases hk : k = a <;> simp [hk]

theorem loadProcessedIDs_recordAll (ids : List GoString) (h : ∀ id ∈ ids, Storable id)
    (k : GoString) : loadProcessedIDs (some (recordAll ids)) k = true ↔ k ∈ ids := by
  simp only [loadProcessedIDs, scanLines_recordAll ids h, foldl_insert_apply]
  simp

/-! ## The loop of `checkInbox` -/

/-- The five ways the handling of one message can go. -/
theorem processMessage_cases (w : World) (i : Nat) (id : GoString) :
    processMessage w i id = ([], some (.panicked i)) ∨
    processMessage w i id = ([], none) ∨
    (∃ body site, processMessage w i id = ([.completion i body], some (.fatal i site))) ∨
    (∃ body draft ev, w.jsonUnmarshal ((w.createCalendarSummary i body).getD []) = some draft ∧
      buildEvent w draft = .ok ev ∧ w.createGoogleCalendarEvent i ev = true ∧
      processMessage w i id =
        ([.completion i body, .publish i ev true, .append i id], none)) ∨
    (∃ body draft ev, w.jsonUnmarshal ((w.createCalendarSummary i body).getD []) = some draft ∧
      buildEvent w draft = .ok ev ∧ w.createGoogleCalendarEvent i ev = false ∧
      processMessage w i id =
        ([.completion i body, .publish i ev false], some (.fatal i .createEvent))) := by
  cases hm : w.getMessage i id with
  | none => left; simp [processMessage, hm]
  | some msg =>
    cases he : extractEmailBody msg with
    | none => left; simp [processMessage, hm, he]
    | some body =>
      by_cases hd : stringsContains body declineMarker = true
      · right; left; simp [processMessage, hm, he, hd]
      · cases hj : w.jsonUnmarshal ((w.createCalendarSummary i body).getD []) with
        | none =>
          right; right; left
          exact ⟨body, .parseResponse, by simp [processMessage, hm, he, hd, hj]⟩
        | some draft =>
          cases hb : buildEvent w draft with
          | error site =>
            right; right; left
            exact ⟨body, site, by simp [processMessage, hm, he, hd, hj, hb]⟩
          | ok ev =>
            cases hc : w.createGoogleCalendarEvent i ev with
            | true =>
              right; right; right; left
              exact ⟨body, draft, ev, hj, hb, hc, by simp [processMessage, hm, he, hd, hj, hb, hc]⟩
            | false =>
              right; right; right; right
              exact ⟨body, draft, ev, hj, hb, hc, by simp [processMessage, hm, he, hd, hj, hb, hc]⟩

theorem processMessage_index (w : World) (i : Nat) (id : GoString) (e : Effect)
    (h : e ∈ (processMessage w i id).1) : e.index = i := by
  rcases processMessage_cases w i id with h1 | h1 | ⟨_, _, h1⟩ | ⟨_, _, _, _, _, _, h1⟩ |
    ⟨_, _, _, _, _, _, h1⟩ <;> rw [h1] at h <;> simp at h
  · subst h; rfl
  · rcases h with rfl | rfl | rfl <;> rfl
  · rcases h with rfl | rfl <;> rfl

/-- An append among the effects of one message is its last effect, directly after the successful
publish call of that message. -/
theorem processMessage_append (w : World) (i : Nat) (id : GoString) (k : Nat) (x : GoString)
    (h : Effect.append k x ∈ (processMessage w i id).1) :
    k = i ∧ x = id ∧ ∃ body ev, processMessage w i id =
      ([.completion i body, .publish i ev true, .append i id], none) := by
  rcases processMessage_cases w i id with h1 | h1 | ⟨_, _, h1⟩ | ⟨body, _, ev, _, _, _, h1⟩ |
    ⟨_, _, _, _, _, _, h1⟩ <;> rw [h1] at h <;> simp at h
  exact ⟨h.1, h.2, body, ev, h1⟩

/-- A publish call among the effects of one message carries the event built from the draft
decoded for that message. -/
theorem processMessage_publish (w : World) (i : Nat) (id : GoString) (k : Nat)
    (ev : CalendarEvent) (ok : Bool) (h : Effect.publish k ev ok ∈ (processMessage w i id).1) :
    ∃ body draft, w.jsonUnmarshal ((w.createCalendarSummary i body).getD []) = some draft ∧
      buildEvent w draft = .ok ev := by
  rcases processMessage_cases w i id with h1 | h1 | ⟨_, _, h1⟩ | ⟨body, draft, ev2, hj, hb, _, h1⟩ |
    ⟨body, draft, ev2, hj, hb, _, h1⟩ <;> rw [h1] at h <;> simp at h
  · exact ⟨body, draft, hj, h.2.1 ▸ hb⟩
  · exact ⟨body, draft, hj, h.2.1 ▸ hb⟩

/-- Every effect of the loop comes from the handling of a listed message that was not in the
processed set. -/
theorem mem_checkInboxLoop (w : World) (processed : GoString → Bool) :
    ∀ (ids : List GoString) (i0 : Nat) (e : Effect), e ∈ (checkInboxLoop w processed i0 ids).1 →
      ∃ id, i0 ≤ e.index ∧ ids[e.index - i0]? = some id ∧ processed id = false ∧
        e ∈ (processMessage w e.index id).1 := by
  intro ids
  induction ids with
  | nil => intro i0 e h; simp [checkInboxLoop] at h
  | cons id rest ih =>
    intro i0 e h
    have shift : ∀ e : Effect, (∃ id', i0 + 1 ≤ e.index ∧ rest[e.index - (i0 + 1)]? = some id' ∧
        processed id' = false ∧ e ∈ (processMessage w e.index id').1) →
        ∃ id', i0 ≤ e.index ∧ (id :: rest)[e.index - i0]? = some id' ∧
          processed id' = false ∧ e ∈ (processMessage w e.index id').1 := by
      rintro e ⟨id', h1, h2, h3, h4⟩
      refine ⟨id', by omega, ?_, h3, h4⟩
      have : e.index - i0 = (e.index - (i0 + 1)) + 1 := by omega
      rw [this, List.getElem?_cons_succ]; exact h2
    have here : ∀ e : Effect, processed id = false → e ∈ (processMessage w i0 id).1 →
        ∃ id', i0 ≤ e.index ∧ (id :: rest)[e.index - i0]? = some id' ∧
          processed id' = false ∧ e ∈ (processMessage w e.index id').1 := by
      intro e hp he
      have hi := processMessage_index w i0 id e he
      exact ⟨id, by omega, by simp [hi], hp, by rw [hi]; exact he⟩
    rw [checkInboxLoop] at h
    by_cases hp : processed id = true
    · rw [if_pos hp] at h
      exact shift e (ih _ e h)
    · rw [if_neg hp] at h
      have hp : processed id = false := by simpa using hp
      rcases hpm : processMessage w i0 id with ⟨effects, _ | exit⟩
      · rw [hpm] at h
        rcases List.mem_append.mp h with h | h
        · exact here e hp (by rw [hpm]; exact h)
        · exact shift e (ih _ e h)
      · rw [hpm] at h
        exact here e hp (by rw [hpm]; exact h)

theorem checkInboxLoop_skip (w : World) (processed : GoString → Bool) (i0 : Nat) (id : GoString)
    (rest : List GoString) (hp : processed id = true) :
    checkInboxLoop w processed i0 (id :: rest) = checkInboxLoop w processed (i0 + 1) rest := by
  rw [checkInboxLoop, if_pos hp]

theorem checkInboxLoop_exit (w : World) (processed : GoString → Bool) (i0 : Nat) (id : GoString)
    (rest : List GoString) (effects : List Effect) (exit : Exit) (hp : ¬ processed id = true)
    (hpm : processMessage w i0 id = (effects, some exit)) :
    checkInboxLoop w processed i0 (id :: rest) = (effects, exit) := by
  rw [checkInboxLoop, if_neg hp, hpm]

theorem checkInboxLoop_continue (w : World) (processed : GoString → Bool) (i0 : Nat)
    (id : GoString) (rest : List GoString) (effects : List Effect) (hp : ¬ processed id = true)
    (hpm : processMessage w i0 id = (effects, none)) :
    checkInboxLoop w processed i0 (id :: rest) =
      (effects ++ (checkInboxLoop w processed (i0 + 1) rest).1,
        (checkInboxLoop w processed (i0 + 1) rest).2) := by
  rw [checkInboxLoop, if_neg hp, hpm]

theorem appendedIds_append (a b : List Effect) :
    appendedIds (a ++ b) = appendedIds a ++ appendedIds b := by
  induction a with
  | nil => rfl
  | cons e a ih => cases e <;> simp [appendedIds, ih]

theorem mem_appendedIds {tr : List Effect} {x : GoString} :
    x ∈ appendedIds tr ↔ ∃ k, Effect.append k x ∈ tr := by
  induction tr with
  | nil => simp [appendedIds]
  | cons e tr ih =>
    cases e <;> simp only [appendedIds, ih, List.mem_cons, Effect.append.injEq, reduceCtorEq,
      false_or]
    constructor
    · rintro (h | ⟨k, h⟩)
      · exact ⟨_, Or.inl ⟨rfl, h⟩⟩
      · exact ⟨k, Or.inr h⟩
    · rintro ⟨k, h | h⟩
      · exact Or.inl h.2
      · exact Or.inr ⟨k, h⟩

/-- The ids one message appends: none, or its own id. -/
theorem appendedIds_processMessage (w : World) (i : Nat) (id : GoString) :
    appendedIds (processMessage w i id).1 = [] ∨
      appendedIds (processMessage w i id).1 = [id] := by
  rcases processMessage_cases w i id with h1 | h1 | ⟨_, _, h1⟩ | ⟨_, _, _, _, _, _, h1⟩ |
    ⟨_, _, _, _, _, _, h1⟩ <;> rw [h1] <;> simp [appendedIds]

/-- The ids a loop appends are picked, in order, from the ids it ranges over. -/
theorem appendedIds_sublist (w : World) (processed : GoString → Bool) :
    ∀ (ids : List GoString) (i0 : Nat),
      (appendedIds (checkInboxLoop w processed i0 ids).1).Sublist ids := by
  intro ids
  induction ids with
  | nil => intro i0; simp [checkInboxLoop, appendedIds]
  | cons id rest ih =>
    intro i0
    by_cases hp : processed id = true
    · rw [checkInboxLoop_skip w processed i0 id rest hp]; exact (ih _).cons _
    · have h1 := appendedIds_processMessage w i0 id
      rcases hpm : processMessage w i0 id with ⟨effects, _ | exit⟩
      · rw [checkInboxLoop_continue w processed i0 id rest effects hp hpm]
        rw [hpm] at h1
        simp only [appendedIds_append]
        rcases h1 with h1 | h1 <;> rw [h1]
        · exact (ih _).cons _
        · exact (ih _).cons₂ _
      · rw [checkInboxLoop_exit w processed i0 id rest effects exit hp hpm]
        rw [hpm] at h1
        rcases h1 with h1 | h1 <;> simp only [h1]
        · exact List.nil_sublist _
        · exact (List.nil_sublist _).cons₂ _

/-- When the process ends while handling message `j`, the loop had reached `j`, every effect
belongs to a message at or before `j`, and the handling of `j` is what ended the process. -/
theorem checkInboxLoop_fatal (w : World) (processed : GoString → Bool) (j : Nat)
    (site : FatalSite) :
    ∀ (ids : List GoString) (i0 : Nat), (checkInboxLoop w processed i0 ids).2 = .fatal j site →
      i0 ≤ j ∧ (∀ e ∈ (checkInboxLoop w processed i0 ids).1, e.index ≤ j) ∧
        ∃ id, ids[j - i0]? = some id ∧ (processMessage w j id).2 = some (.fatal j site) := by
  intro ids
  induction ids with
  | nil => intro i0 h; simp [checkInboxLoop] at h
  | cons id rest ih =>
    intro i0 h
    have shift : (i0 + 1 ≤ j ∧ (∀ e ∈ (checkInboxLoop w processed (i0 + 1) rest).1, e.index ≤ j) ∧
        ∃ id', rest[j - (i0 + 1)]? = some id' ∧
          (processMessage w j id').2 = some (.fatal j site)) →
        i0 ≤ j ∧ ∃ id', (id :: rest)[j - i0]? = some id' ∧
          (processMessage w j id').2 = some (.fatal j site) := by
      rintro ⟨h1, _, id', h2, h3⟩
      refine ⟨by omega, id', ?_, h3⟩
      have : j - i0 = (j - (i0 + 1)) + 1 := by omega
      rw [this, List.getElem?_cons_succ]; exact h2
    by_cases hp : processed id = true
    · rw [checkInboxLoop_skip w processed i0 id rest hp] at h ⊢
      have := ih _ h
      exact ⟨(shift this).1, this.2.1, (shift this).2⟩
    · rcases hpm : processMessage w i0 id with ⟨effects, _ | exit⟩
      · rw [checkInboxLoop_continue w processed i0 id rest effects hp hpm] at h ⊢
        have := ih _ h
        refine ⟨(shift this).1, ?_, (shift this).2⟩
        intro e he
        rcases List.mem_append.mp he with he | he
        · have := processMessage_index w i0 id e (by rw [hpm]; exact he)
          have := (shift ‹_›).1
          omega
        · exact this.2.1 e he
      · rw [checkInboxLoop_exit w processed i0 id rest effects exit hp hpm] at h ⊢
        have hexit : exit = .fatal j site := h
        subst hexit
        have hj : j = i0 := by
          rcases processMessage_cases w i0 id with h1 | h1 | ⟨_, _, h1⟩ |
            ⟨_, _, _, _, _, _, h1⟩ | ⟨_, _, _, _, _, _, h1⟩ <;> rw [h1] at hpm <;>
            simp at hpm <;> simp [hpm.2]
        subst hj
        refine ⟨le_refl _, ?_, id, by simp, by rw [hpm]⟩
        intro e he
        exact le_of_eq (processMessage_index w j id e (by rw [hpm]; exact he))

/-- In the trace of a loop every append comes directly after the successful publish call of the
same message. -/
theorem checkInboxLoop_append_after_publish (w : World) (processed : GoString → Bool) :
    ∀ (ids : List GoString) (i0 : Nat) (pre post : List Effect) (k : Nat) (x : GoString),
      (checkInboxLoop w processed i0 ids).1 = pre ++ Effect.append k x :: post →
        ∃ pre2 ev, pre = pre2 ++ [Effect.publish k ev true] := by
  intro ids
  induction ids with
  | nil => intro i0 pre post k x h; simp [checkInboxLoop] at h
  | cons id rest ih =>
    intro i0 pre post k x h
    by_cases hp : processed id = true
    · rw [checkInboxLoop_skip w processed i0 id rest hp] at h; exact ih _ _ _ _ _ h
    · have inBlock : ∀ (c : List Effect),
          (processMessage w i0 id).1 = pre ++ Effect.append k x :: c →
            ∃ pre2 ev, pre = pre2 ++ [Effect.publish k ev true] := by
        intro c hc
        have hmem : Effect.append k x ∈ (processMessage w i0 id).1 := by rw [hc]; simp
        obtain ⟨hk, _, body, ev, hshape⟩ := processMessage_append w i0 id k x hmem
        rw [hshape] at hc
        simp only at hc
        match pre, hc with
        | [], hc => simp at hc
        | [_], hc => simp at hc
        | [a, b], hc =>
          simp only [List.cons_append, List.nil_append, List.cons.injEq] at hc
          exact ⟨[a], ev, by rw [hk, ← hc.2.1]; rfl⟩
        | a :: b :: c :: pre3, hc => simp at hc
      rcases hpm : processMessage w i0 id with ⟨effects, _ | exit⟩
      · rw [checkInboxLoop_continue w processed i0 id rest effects hp hpm] at h
        rw [hpm] at inBlock
        simp only at h inBlock
        rcases List.append_eq_append_iff.mp h with ⟨a, ha, hb⟩ | ⟨c, hc, hd⟩
        · obtain ⟨pre2, ev, hpre⟩ := ih _ _ _ _ _ hb
          exact ⟨effects ++ pre2, ev, by rw [ha, hpre, List.append_assoc]⟩
        · match c, hd with
          | [], hd =>
            simp only [List.nil_append] at hd
            obtain ⟨pre2, ev, hpre⟩ := ih _ [] _ _ _ hd.symm
            simp at hpre
          | e :: c2, hd =>
            simp only [List.cons_append, List.cons.injEq] at hd
            exact inBlock c2 (by rw [hc, hd.1])
      · rw [checkInboxLoop_exit w processed i0 id rest effects exit hp hpm] at h
        rw [hpm] at inBlock
        exact inBlock post h

/-- The trace of a cycle that got as far as the loop. -/
theorem checkInbox_trace (w : World) (ids : List GoString) (hlist : w.listMessages = some ids) :
    checkInbox w = ([], .setupFailed) ∨
      checkInbox w = checkInboxLoop w (loadProcessedIDs w.processedFile) 0 ids := by
  unfold checkInbox
  rw [hlist]
  cases w.openLog <;> simp

theorem mem_checkInbox (w : World) (ids : List GoString) (hlist : w.listMessages = some ids)
    (e : Effect) (he : e ∈ (checkInbox w).1) :
    ∃ id, ids[e.index]? = some id ∧ loadProcessedIDs w.processedFile id = false ∧
      e ∈ (processMessage w e.index id).1 := by
  rcases checkInbox_trace w ids hlist with h | h <;> rw [h] at he
  · simp at he
  · obtain ⟨id, _, h2, h3, h4⟩ := mem_checkInboxLoop w _ ids 0 e he
    exact ⟨id, by simpa using h2, h3, h4⟩

/-- Claim C1 (idempotency of `checkInbox`): for a listed message whose id is in the processed set
loaded at the start of the cycle, the cycle has no effect at all for that message, in particular
no publish call, and no append of that id to the log. -/
theorem checkInbox_skips_processed (w : World) (ids : List GoString) (i : Nat) (id : GoString)
    (hlist : w.listMessages = some ids) (hi : ids[i]? = some id)
    (hproc : loadProcessedIDs w.processedFile id = true) :
    (∀ e ∈ (checkInbox w).1, e.index ≠ i) ∧
    (∀ ev ok, Effect.publish i ev ok ∉ (checkInbox w).1) ∧
    (∀ k, Effect.append k id ∉ (checkInbox w).1) := by
  have key : ∀ e ∈ (checkInbox w).1, e.index ≠ i := by
    intro e he hidx
    obtain ⟨id2, h1, h2, _⟩ := mem_checkInbox w ids hlist e he
    rw [hidx, hi] at h1
    cases h1
    rw [hproc] at h2
    cases h2
  refine ⟨key, fun ev ok h => key _ h rfl, ?_⟩
  intro k h
  obtain ⟨id2, _, h2, h3⟩ := mem_checkInbox w ids hlist _ h
  obtain ⟨_, hid, _⟩ := processMessage_append w _ id2 k id h3
  rw [← hid, hproc] at h2
  cases h2

set_option maxRecDepth 100000 in
theorem checkInbox_skips_processed_witness :
    (exampleWorld.listMessages = some [lit "18f0a", lit "18f0b", lit "18f0c"] ∧
      loadProcessedIDs exampleWorld.processedFile (lit "18f0a") = true) ∧
    ((∀ e ∈ (checkInbox exampleWorld).1, e.index ≠ 0) ∧
      (∀ ev ok, Effect.publish 0 ev ok ∉ (checkInbox exampleWorld).1) ∧
      (∀ k, Effect.append k (lit "18f0a") ∉ (checkInbox exampleWorld).1)) :=
  ⟨⟨rfl, by decide⟩,
    checkInbox_skips_processed exampleWorld _ 0 (lit "18f0a") rfl rfl (by decide)⟩

/-- Claim C4 (record after publish): in the trace of a cycle every append to the log is the id of
the listed message being handled and comes directly after the successful publish call of that
same message; when the process ends in a fatal error while handling message `j` (draft parsing,
start or end time normalisation, publish) every append belongs to an earlier message, so nothing
is appended for `j`, and with pairwise distinct listed ids the id of `j` is not appended at all;
with pairwise distinct listed ids no id is appended twice. -/
theorem checkInbox_records_after_publish (w : World) (ids : List GoString)
    (hlist : w.listMessages = some ids) :
    (∀ pre post k x, (checkInbox w).1 = pre ++ Effect.append k x :: post →
      ids[k]? = some x ∧ ∃ pre2 ev, pre = pre2 ++ [Effect.publish k ev true]) ∧
    (∀ j site, (checkInbox w).2 = .fatal j site →
      (∀ k x, Effect.append k x ∈ (checkInbox w).1 → k < j) ∧
      (ids.Nodup → ∀ id, ids[j]? = some id → id ∉ appendedIds (checkInbox w).1)) ∧
    (ids.Nodup → (appendedIds (checkInbox w).1).Nodup) := by
  have happ : ∀ k x, Effect.append k x ∈ (checkInbox w).1 → ids[k]? = some x := by
    intro k x h
    obtain ⟨id2, h1, _, h3⟩ := mem_checkInbox w ids hlist _ h
    obtain ⟨_, hid, _⟩ := processMessage_append w _ id2 k x h3
    rw [hid]; exact h1
  have hlt : ∀ j site, (checkInbox w).2 = .fatal j site →
      ∀ k x, Effect.append k x ∈ (checkInbox w).1 → k < j := by
    intro j site hexit k x h
    rcases checkInbox_trace w ids hlist with h0 | h0
    · rw [h0] at h; simp at h
    · rw [h0] at hexit h
      obtain ⟨_, hle, id, hid, hpm⟩ := checkInboxLoop_fatal w _ j site ids 0 hexit
      have hkj : k ≤ j := hle _ h
      rcases Nat.lt_or_eq_of_le hkj with hlt | heq
      · exact hlt
      · exfalso
        subst heq
        obtain ⟨id2, _, h2, _, h4⟩ := mem_checkInboxLoop w _ ids 0 _ h
        simp only [Effect.index, Nat.sub_zero] at h2 h4 hid
        rw [hid] at h2
        cases h2
        obtain ⟨_, _, _, _, hshape⟩ := processMessage_append w k id k x h4
        rw [hshape] at hpm
        simp at hpm
  refine ⟨?_, ?_, ?_⟩
  · intro pre post k x h
    refine ⟨happ k x (by rw [h]; simp), ?_⟩
    rcases checkInbox_trace w ids hlist with h0 | h0 <;> rw [h0] at h
    · simp at h
    · exact checkInboxLoop_append_after_publish w _ ids 0 pre post k x h
  · intro j site hexit
    refine ⟨hlt j site hexit, ?_⟩
    intro hnd id hj hmem
    obtain ⟨k, hk⟩ := mem_appendedIds.mp hmem
    have hkj := hlt j site hexit k id hk
    have hkid := happ k id hk
    obtain ⟨hk1, hk2⟩ := List.getElem?_eq_some_iff.mp hkid
    obtain ⟨hj1, hj2⟩ := List.getElem?_eq_some_iff.mp hj
    have := (List.Nodup.getElem_inj_iff hnd).mp (hk2.trans hj2.symm)
    omega
  · intro hnd
    rcases checkInbox_trace w ids hlist with h0 | h0 <;> rw [h0]
    · simp [appendedIds]
    · exact (appendedIds_sublist w _ ids 0).nodup hnd

set_option maxRecDepth 100000 in
theorem checkInbox_records_after_publish_witness :
    (exampleWorldPublishFails.listMessages = some [lit "18f0a", lit "18f0b", lit "18f0c"] ∧
      (checkInbox exampleWorldPublishFails).2 = .fatal 2 .createEvent ∧
      [lit "18f0a", lit "18f0b", lit "18f0c"].Nodup) ∧
    lit "18f0c" ∉ appendedIds (checkInbox exampleWorldPublishFails).1 :=
  ⟨⟨rfl, by decide, by decide⟩,
    ((checkInbox_records_after_publish exampleWorldPublishFails _ rfl).2.1 2 .createEvent
      (by decide)).2 (by decide) (lit "18f0c") rfl⟩

/-- Claim C5 (decline filtering): for a listed message that is not in the processed set and whose
extracted body contains the decline marker, the cycle makes no completion call, no publish call
and no append for that message; its id is not appended at all when the listed ids are pairwise
distinct, or when fetching that id yields this message wherever it is listed; and the loop goes
on with the next listed message. -/
theorem checkInbox_skips_declined (w : World) (ids : List GoString) (i : Nat) (id : GoString)
    (msg : Message) (body : GoString)
    (hlist : w.listMessages = some ids) (hi : ids[i]? = some id)
    (hnew : loadProcessedIDs w.processedFile id = false)
    (hmsg : w.getMessage i id = some msg) (hbody : extractEmailBody msg = some body)
    (hdecl : stringsContains body declineMarker = true) :
    (∀ b, Effect.completion i b ∉ (checkInbox w).1) ∧
    (∀ ev ok, Effect.publish i ev ok ∉ (checkInbox w).1) ∧
    (∀ x, Effect.append i x ∉ (checkInbox w).1) ∧
    (ids.Nodup ∨ (∀ j, ids[j]? = some id → w.getMessage j id = some msg) →
      id ∉ appendedIds (checkInbox w).1) ∧
    (∀ rest, checkInboxLoop w (loadProcessedIDs w.processedFile) i (id :: rest) =
      checkInboxLoop w (loadProcessedIDs w.processedFile) (i + 1) rest) := by
  have hpm : processMessage w i id = ([], none) := by
    simp [processMessage, hmsg, hbody, hdecl]
  have key : ∀ e ∈ (checkInbox w).1, e.index ≠ i := by
    intro e he hidx
    obtain ⟨id2, h1, _, h3⟩ := mem_checkInbox w ids hlist e he
    rw [hidx, hi] at h1
    cases h1
    rw [hidx, hpm] at h3
    simp at h3
  refine ⟨fun b h => key _ h rfl, fun ev ok h => key _ h rfl, fun x h => key _ h rfl, ?_, ?_⟩
  · intro hor hmem
    obtain ⟨k, hk⟩ := mem_appendedIds.mp hmem
    obtain ⟨id2, h1, _, h3⟩ := mem_checkInbox w ids hlist _ hk
    obtain ⟨_, hid, _⟩ := processMessage_append w _ id2 k id h3
    simp only [Effect.index] at h1 h3
    rw [← hid] at h1 h3
    rcases hor with hnd | hsame
    · obtain ⟨hk1, hk2⟩ := List.getElem?_eq_some_iff.mp h1
      obtain ⟨hi1, hi2⟩ := List.getElem?_eq_some_iff.mp hi
      have hki : k = i := (List.Nodup.getElem_inj_iff hnd).mp (hk2.trans hi2.symm)
      exact key _ hk hki
    · have hpk : processMessage w k id = ([], none) := by
        simp [processMessage, hsame k h1, hbody, hdecl]
      rw [hpk] at h3
      simp at h3
  · intro rest
    have hp : ¬ loadProcessedIDs w.processedFile id = true := by simp [hnew]
    rw [checkInboxLoop_continue w _ i id rest [] hp hpm]
    simp

set_option maxRecDepth 100000 in
theorem checkInbox_skips_declined_witness :
    (exampleWorld.listMessages = some [lit "18f0a", lit "18f0b", lit "18f0c"] ∧
      loadProcessedIDs exampleWorld.processedFile (lit "18f0b") = false ∧
      exampleWorld.getMessage 1 (lit "18f0b") = some declinedMessage ∧
      extractEmailBody declinedMessage = some declineMarker ∧
      stringsContains declineMarker declineMarker = true) ∧
    ((∀ b, Effect.completion 1 b ∉ (checkInbox exampleWorld).1) ∧
      (∀ ev ok, Effect.publish 1 ev ok ∉ (checkInbox exampleWorld).1) ∧
      (∀ x, Effect.append 1 x ∉ (checkInbox exampleWorld).1) ∧
      ([lit "18f0a", lit "18f0b", lit "18f0c"].Nodup ∨
          (∀ j, [lit "18f0a", lit "18f0b", lit "18f0c"][j]? = some (lit "18f0b") →
            exampleWorld.getMessage j (lit "18f0b") = some declinedMessage) →
        lit "18f0b" ∉ appendedIds (checkInbox exampleWorld).1) ∧
      (∀ rest, checkInboxLoop exampleWorld (loadProcessedIDs exampleWorld.processedFile) 1
          (lit "18f0b" :: rest) =
        checkInboxLoop exampleWorld (loadProcessedIDs exampleWorld.processedFile) 2 rest)) :=
  ⟨⟨rfl, by decide, rfl, by decide, by decide⟩,
    checkInbox_skips_declined exampleWorld _ 1 (lit "18f0b") declinedMessage declineMarker
      rfl rfl (by decide) rfl (by decide) (by decide)⟩

/-! ## Times and defaults of the event -/

theorem formatRFC3339_ne_nil (abs offset : Int) : formatRFC3339 abs offset ≠ [] := by
  simp [formatRFC3339]

/-- What `buildEvent` returns when it reaches the end. -/
theorem buildEvent_ok (w : World) (draft ev : CalendarEvent) (h : buildEvent w draft = .ok ev) :
    ∃ T E, parseToEastern w draft.StartTime = some T ∧
      parseToEastern w (midTimes w draft T).2 = some E ∧
      ev = { Title := if draft.Title = [] then lit "No title provided." else draft.Title
             StartTime := (midTimes w draft T).1
             EndTime := E.Format
             Location := if draft.Location = [] then lit "Virtual" else draft.Location
             Description :=
               if draft.Description = [] then lit "No description provided."
               else draft.Description } := by
  unfold buildEvent at h
  cases hT : parseToEastern w draft.StartTime with
  | none => simp [hT] at h
  | some T =>
    simp only [hT] at h
    refine ⟨T, ?_⟩
    by_cases he : draft.EndTime = []
    · cases hL : w.ParseLocal T.Format with
      | none =>
        simp only [he, hL, if_true] at h
        cases hE : parseToEastern w [] with
        | none => simp [hE] at h
        | some E =>
          simp only [hE] at h
          refine ⟨E, rfl, by simp [midTimes, he, hL, hE], ?_⟩
          injection h with h
          rw [← h]
          by_cases h1 : draft.Location = [] <;> by_cases h2 : draft.Description = [] <;>
            by_cases h3 : draft.Title = [] <;> simp [midTimes, he, hL, h1, h2, h3]
      | some start =>
        simp only [he, hL, if_true] at h
        cases hE : parseToEastern w (start.Add Hour).Format with
        | none => simp [hE] at h
        | some E =>
          simp only [hE] at h
          refine ⟨E, rfl, by simp [midTimes, he, hL, hE], ?_⟩
          injection h with h
          rw [← h]
          by_cases h1 : draft.Location = [] <;> by_cases h2 : draft.Description = [] <;>
            by_cases h3 : draft.Title = [] <;> simp [midTimes, he, hL, h1, h2, h3]
    · simp only [he, if_false] at h
      cases hE : parseToEastern w draft.EndTime with
      | none => simp [hE] at h
      | some E =>
        simp only [hE] at h
        refine ⟨E, rfl, by simp [midTimes, he, hE], ?_⟩
        injection h with h
        rw [← h]
        by_cases h1 : draft.Location = [] <;> by_cases h2 : draft.Description = [] <;>
          by_cases h3 : draft.Title = [] <;> simp [midTimes, he, h1, h2, h3]

theorem parseToEastern_eq_some (w : World) (raw : GoString) (t : Time)
    (h : parseToEastern w raw = some t) :
    ∃ ny p, w.loadLocation = some ny ∧ w.ParseIn raw ny = some p ∧ t = p.In ny := by
  unfold parseToEastern at h
  cases hny : w.loadLocation with
  | none => simp [hny] at h
  | some ny =>
    cases hp : w.ParseIn raw ny with
    | none => simp [hny, hp] at h
    | some p =>
      simp only [hny, hp, Option.some.injEq] at h
      exact ⟨ny, p, rfl, hp, h.symm⟩

theorem newYork_zone : NewYorkZone newYork := by
  intro u
  simp only [newYork, newYork2024]
  constructor
  · intro h; simp [h]
  · intro h
    have h2 : ¬ u < -2717650800 := by omega
    simp only [h2, if_false]
    split
    · right; rfl
    · left; rfl

/-- Claim C9, as amended: with the zone database entry of America/New_York, an instant
`parseToEastern` returns is the instant the lenient parser read, whatever zone the parser put it
in, shown in the New York zone, so its offset is the New York offset in force at that instant:
-4:56:02 before 1883-11-18 17:00 UTC, -5:00 or -4:00 from then on; `March 5 3pm`, which the
parser reads as 15:00:00 on March 5 of year 0 New York time, comes back as 15:00 on March 5
with the offset -4:56:02, rendered `0000-03-05T15:00:00-04:56`; and a string the parser rejects,
or a zone that cannot be loaded, makes `parseToEastern` return an error. -/
theorem parseToEastern_normalizes :
    (∀ (w : World) (ny : Location) (raw : GoString) (t : Time),
      w.loadLocation = some ny → NewYorkZone ny → parseToEastern w raw = some t →
      (∃ p, w.ParseIn raw ny = some p ∧ t.unixNano = p.unixNano) ∧ t.loc = ny ∧
        (t.unixSec < -2717650800 → t.offset = -17762) ∧
        (-2717650800 ≤ t.unixSec → t.offset = -18000 ∨ t.offset = -14400)) ∧
    (∀ (w : World) (ny : Location) (p : Time),
      w.loadLocation = some ny → NewYorkZone ny →
      w.ParseIn (lit "March 5 3pm") ny = some p → p.unixSec = -62161617838 →
      ∃ t, parseToEastern w (lit "March 5 3pm") = some t ∧ t.unixNano = p.unixNano ∧
        t.Month = 3 ∧ t.Day = 5 ∧ t.Hour = 15 ∧ t.Minute = 0 ∧ t.offset = -17762 ∧
        t.Format = lit "0000-03-05T15:00:00-04:56") ∧
    (∀ (w : World) (raw : GoString),
      (∀ ny, w.loadLocation = some ny → w.ParseIn raw ny = none) →
        parseToEastern w raw = none) := by
  refine ⟨?_, ?_, ?_⟩
  · intro w ny raw t hny hzone h
    obtain ⟨ny2, p, h1, h2, rfl⟩ := parseToEastern_eq_some w raw t h
    rw [hny] at h1
    cases h1
    exact ⟨⟨p, h2, rfl⟩, rfl, (hzone _).1, (hzone _).2⟩
  · intro w ny p hny hzone hp hsec
    have hs : (p.In ny).unixSec = -62161617838 := hsec
    have ho : (p.In ny).offset = -17762 := by
      simp only [Time.offset, hs]
      exact (hzone _).1 (by decide)
    have ha : (p.In ny).abs = -62161635600 := by
      simp only [Time.abs, hs, ho]; rfl
    refine ⟨p.In ny, by simp [parseToEastern, hny, hp], rfl, ?_, ?_, ?_, ?_, ho, ?_⟩
    · simp only [Time.Month, ha]; decide
    · simp only [Time.Day, ha]; decide
    · simp only [Time.Hour, ha]; decide
    · simp only [Time.Minute, ha]; decide
    · simp only [Time.Format, ha, ho]; decide
  · intro w raw h
    unfold parseToEastern
    cases hny : w.loadLocation with
    | none => rfl
    | some ny => simp [h ny hny]

set_option maxRecDepth 100000 in
theorem parseToEastern_normalizes_witness :
    (yearZeroWorld.loadLocation = some newYork ∧ NewYorkZone newYork ∧
      yearZeroWorld.ParseIn (lit "March 5 3pm") newYork =
        some ⟨-62161617838000000000, newYork⟩) ∧
    ∃ t, parseToEastern yearZeroWorld (lit "March 5 3pm") = some t ∧
      t.unixNano = -62161617838000000000 ∧ t.Month = 3 ∧ t.Day = 5 ∧ t.Hour = 15 ∧
      t.Minute = 0 ∧ t.offset = -17762 ∧ t.Format = lit "0000-03-05T15:00:00-04:56" :=
  ⟨⟨rfl, newYork_zone, rfl⟩,
    parseToEastern_normalizes.2.1 yearZeroWorld newYork ⟨-62161617838000000000, newYork⟩
      rfl newYork_zone rfl (by decide)⟩

/-- Claim C9 as stated fails at its own example: the instant `parseToEastern` returns for
`March 5 3pm` is shown in the New York zone, and its offset is the local mean time -4:56:02,
neither -5:00 nor -4:00. -/
theorem parseToEastern_year_zero_offset :
    ∃ t, parseToEastern yearZeroWorld (lit "March 5 3pm") = some t ∧ t.loc = newYork ∧
      t.offset = -17762 ∧ t.offset ≠ -18000 ∧ t.offset ≠ -14400 :=
  ⟨(⟨-62161617838000000000, newYork⟩ : Time).In newYork, rfl, rfl, by decide, by decide,
    by decide⟩

/-- Claim C8 (defaulting): an event `buildEvent` hands on has location `Virtual` when the draft
had none and the location of the draft otherwise, likewise description
`No description provided.` and title `No title provided.`, each whatever the other fields are,
and none of its five fields is empty; every event a cycle passes to the publish call is such an
event, built from the draft decoded for that message. -/
theorem buildEvent_defaults :
    (∀ (w : World) (draft ev : CalendarEvent), buildEvent w draft = .ok ev →
      ev.Location = (if draft.Location = [] then lit "Virtual" else draft.Location) ∧
      ev.Description =
        (if draft.Description = [] then lit "No description provided."
         else draft.Description) ∧
      ev.Title = (if draft.Title = [] then lit "No title provided." else draft.Title) ∧
      ev.Title ≠ [] ∧ ev.StartTime ≠ [] ∧ ev.EndTime ≠ [] ∧ ev.Location ≠ [] ∧
      ev.Description ≠ []) ∧
    (∀ (w : World) (ids : List GoString) (i : Nat) (ev : CalendarEvent) (ok : Bool),
      w.listMessages = some ids → Effect.publish i ev ok ∈ (checkInbox w).1 →
      ∃ id body draft, ids[i]? = some id ∧
        w.jsonUnmarshal ((w.createCalendarSummary i body).getD []) = some draft ∧
        buildEvent w draft = .ok ev) := by
  refine ⟨?_, ?_⟩
  · intro w draft ev h
    obtain ⟨T, E, _, _, rfl⟩ := buildEvent_ok w draft ev h
    refine ⟨rfl, rfl, rfl, ?_, ?_, ?_, ?_, ?_⟩
    · by_cases h3 : draft.Title = []
      · simp only [h3, if_true]; decide
      · simp [h3]
    · simp only [midTimes]
      split
      · split <;> exact formatRFC3339_ne_nil _ _
      · exact formatRFC3339_ne_nil _ _
    · exact formatRFC3339_ne_nil _ _
    · by_cases h1 : draft.Location = []
      · simp only [h1, if_true]; decide
      · simp [h1]
    · by_cases h2 : draft.Description = []
      · simp only [h2, if_true]; decide
      · simp [h2]
  · intro w ids i ev ok hlist hmem
    obtain ⟨id, h1, _, h3⟩ := mem_checkInbox w ids hlist _ hmem
    obtain ⟨body, draft, hj, hb⟩ := processMessage_publish w _ id i ev ok h3
    exact ⟨id, body, draft, h1, hj, hb⟩

set_option maxRecDepth 100000 in
theorem buildEvent_defaults_witness :
    buildEvent exampleWorld ⟨[], lit "2024-06-01T15:00:00-04:00", [], [], lit "Bring slides"⟩ =
        .ok ⟨lit "No title provided.", lit "2024-06-01T15:00:00-04:00",
          lit "2024-06-01T16:00:00-04:00", lit "Virtual", lit "Bring slides"⟩ ∧
      (lit "Virtual" = (if ([] : GoString) = [] then lit "Virtual" else []) ∧
      lit "Bring slides" =
        (if lit "Bring slides" = [] then lit "No description provided."
         else lit "Bring slides") ∧
      lit "No title provided." =
        (if ([] : GoString) = [] then lit "No title provided." else []) ∧
      lit "No title provided." ≠ [] ∧ lit "2024-06-01T15:00:00-04:00" ≠ [] ∧
      lit "2024-06-01T16:00:00-04:00" ≠ [] ∧ lit "Virtual" ≠ [] ∧ lit "Bring slides" ≠ []) :=
  ⟨by rfl, buildEvent_defaults.1 exampleWorld
    ⟨[], lit "2024-06-01T15:00:00-04:00", [], [], lit "Bring slides"⟩ _ (by rfl)⟩

set_option maxRecDepth 100000 in
/-- Claim C7, at a draft it fails on: for the start time `March 5 3pm` and no end time, the
start normalises to 15:00:00 on March 5 of year 0 at the New York offset -4:56:02, whose
rendering plus one hour is `0000-03-05T16:00:00-04:56`; the rendered start shows the offset in
minutes only, so the instant read back from it is two seconds early, and the event the cycle
publishes ends at `0000-03-05T15:59:58-04:56`. -/
theorem buildEvent_year_zero_end_time :
    (∃ T, parseToEastern yearZeroWorld (lit "March 5 3pm") = some T ∧
      T.Format = lit "0000-03-05T15:00:00-04:56" ∧
      ((T.Add Hour).In newYork).Format = lit "0000-03-05T16:00:00-04:56") ∧
    buildEvent yearZeroWorld ⟨[], lit "March 5 3pm", [], [], []⟩ =
      .ok ⟨lit "No title provided.", lit "0000-03-05T15:00:00-04:56",
        lit "0000-03-05T15:59:58-04:56", lit "Virtual", lit "No description provided."⟩ ∧
    Effect.publish 2 ⟨lit "No title provided.", lit "0000-03-05T15:00:00-04:56",
        lit "0000-03-05T15:59:58-04:56", lit "Virtual", lit "No description provided."⟩ true ∈
      (checkInbox yearZeroWorld).1 := by
  refine ⟨⟨(⟨-62161617838000000000, newYork⟩ : Time).In newYork, rfl, by decide, by decide⟩,
    by rfl, by decide⟩

/-! ## `decodeBody` and the round trip of the log -/

theorem mem_EncodeToString (enc : Encoding) :
    ∀ (b : List Byte) (c : Byte), c ∈ enc.EncodeToString b →
      (∃ v, c = enc.encodeSextet v) ∨ c = padChar
  | b0 :: b1 :: b2 :: rest, c => by
    intro h
    simp only [Encoding.EncodeToString, List.mem_cons] at h
    rcases h with h | h | h | h | h
    · exact Or.inl ⟨_, h⟩
    · exact Or.inl ⟨_, h⟩
    · exact Or.inl ⟨_, h⟩
    · exact Or.inl ⟨_, h⟩
    · exact mem_EncodeToString enc rest c h
  | [b0, b1], c => by
    intro h
    simp only [Encoding.EncodeToString, List.mem_cons, List.mem_singleton, List.not_mem_nil,
      or_false] at h
    rcases h with h | h | h | h
    · exact Or.inl ⟨_, h⟩
    · exact Or.inl ⟨_, h⟩
    · exact Or.inl ⟨_, h⟩
    · exact Or.inr h
  | [b0], c => by
    intro h
    simp only [Encoding.EncodeToString, List.mem_cons, List.mem_singleton, List.not_mem_nil,
      or_false] at h
    rcases h with h | h | h | h
    · exact Or.inl ⟨_, h⟩
    · exact Or.inl ⟨_, h⟩
    · exact Or.inr h
    · exact Or.inr h
  | [], c => by intro h; simp [Encoding.EncodeToString] at h

/-- The URL-safe decoder, given a standard encoding, fails or returns the encoded bytes. -/
theorem URLEncoding_decode_std (b : List Byte) :
    URLEncoding.DecodeString (StdEncoding.EncodeToString b) = none ∨
      URLEncoding.DecodeString (StdEncoding.EncodeToString b) = some b := by
  cases h : URLEncoding.DecodeString (StdEncoding.EncodeToString b) with
  | none => left; rfl
  | some d =>
    right
    have hacc := URLEncoding.decodeFrom_accepts _ _ _ h
    have hagree : ∀ c ∈ StdEncoding.EncodeToString b,
        URLEncoding.decodeMap c = StdEncoding.decodeMap c := by
      intro c hc
      refine decodeMap_agree c (hacc c hc) ?_
      rcases mem_EncodeToString StdEncoding b c hc with ⟨v, rfl⟩ | rfl
      · left; rw [StdEncoding_inverts.decodeMap_encodeSextet]; rfl
      · right; rfl
    have h2 := URLEncoding.decodeFrom_congr StdEncoding _ [] hagree
    have h3 := StdEncoding_inverts.decode_encode decodeMap_padChar_std b
    unfold Encoding.DecodeString at h
    rw [h2, h3] at h
    exact h.symm ▸ rfl

/-- Claim C10, as amended: `decodeBody` returns `b` for the padded URL-safe encoding of `b` and
for the padded standard encoding of `b` (on which the URL-safe attempt fails or yields `b`);
it returns `"(failed to decode body)"` when both decoders reject the input, and otherwise only
when the input decodes to those very bytes. -/
theorem decodeBody_inverts_base64 :
    (∀ b : List Byte, decodeBody (URLEncoding.EncodeToString b) = b) ∧
    (∀ b : List Byte, decodeBody (StdEncoding.EncodeToString b) = b) ∧
    (∀ b : List Byte, URLEncoding.DecodeString (StdEncoding.EncodeToString b) = none ∨
      URLEncoding.DecodeString (StdEncoding.EncodeToString b) = some b) ∧
    (∀ s : GoString, decodeBody s = failedToDecode →
      (URLEncoding.DecodeString s = none ∧ StdEncoding.DecodeString s = none) ∨
        URLEncoding.DecodeString s = some failedToDecode ∨
        StdEncoding.DecodeString s = some failedToDecode) ∧
    (∀ s : GoString, URLEncoding.DecodeString s = none → StdEncoding.DecodeString s = none →
      decodeBody s = failedToDecode) := by
  refine ⟨?_, ?_, URLEncoding_decode_std, ?_, ?_⟩
  · intro b
    have h : URLEncoding.DecodeString (URLEncoding.EncodeToString b) = some b :=
      URLEncoding_inverts.decode_encode decodeMap_padChar_url b
    simp only [decodeBody, h]
  · intro b
    have h := StdEncoding_inverts.decode_encode decodeMap_padChar_std b
    rcases URLEncoding_decode_std b with h1 | h1
    · have h2 : StdEncoding.DecodeString (StdEncoding.EncodeToString b) = some b := h
      simp only [decodeBody, h1, h2]
    · simp only [decodeBody, h1]
  · intro s h
    unfold decodeBody at h
    cases h1 : URLEncoding.DecodeString s with
    | some d => rw [h1] at h; right; left; rw [← h]
    | none =>
      cases h2 : StdEncoding.DecodeString s with
      | some d => rw [h1, h2] at h; right; right; rw [← h]
      | none => left; exact ⟨rfl, rfl⟩
  · intro s h1 h2
    simp [decodeBody, h1, h2]

theorem decodeBody_inverts_base64_witness :
    (URLEncoding.DecodeString (lit "a!") = none ∧ StdEncoding.DecodeString (lit "a!") = none) ∧
      decodeBody (lit "a!") = failedToDecode :=
  ⟨⟨by decide, by decide⟩,
    decodeBody_inverts_base64.2.2.2.2 (lit "a!") (by decide) (by decide)⟩

/-- Claim C10 as stated fails: the input `KGZhaWxlZCB0byBkZWNvZGUgYm9keSk=` is valid in both
alphabets, and `decodeBody` returns `"(failed to decode body)"` for it. -/
theorem decodeBody_sentinel_from_valid_input :
    URLEncoding.DecodeString (lit "KGZhaWxlZCB0byBkZWNvZGUgYm9keSk=") = some failedToDecode ∧
    StdEncoding.DecodeString (lit "KGZhaWxlZCB0byBkZWNvZGUgYm9keSk=") = some failedToDecode ∧
    decodeBody (lit "KGZhaWxlZCB0byBkZWNvZGUgYm9keSk=") = failedToDecode := by
  refine ⟨by decide, by decide, by decide⟩

/-- Claim C6, as amended: for ids that hold no line feed, do not end in a carriage return and are
shorter than the scanner buffer, recorded in any order `ids2` of the list `ids`, the set loaded
from the resulting file has exactly the ids as members, and is the same set whatever the
order. -/
theorem loadProcessedIDs_round_trip (ids ids2 : List GoString)
    (hids : ∀ id ∈ ids, Storable id) (hperm : ids2.Perm ids) :
    (∀ k, loadProcessedIDs (some (recordAll ids2)) k = true ↔ k ∈ ids) ∧
      loadProcessedIDs (some (recordAll ids2)) = loadProcessedIDs (some (recordAll ids)) := by
  have hids2 : ∀ id ∈ ids2, Storable id := fun id h => hids id (hperm.mem_iff.mp h)
  have h1 : ∀ k, loadProcessedIDs (some (recordAll ids2)) k = true ↔ k ∈ ids := fun k =>
    (loadProcessedIDs_recordAll ids2 hids2 k).trans hperm.mem_iff
  refine ⟨h1, funext fun k => ?_⟩
  have h2 := loadProcessedIDs_recordAll ids hids k
  have h3 := h1 k
  cases ha : loadProcessedIDs (some (recordAll ids2)) k <;>
    cases hb : loadProcessedIDs (some (recordAll ids)) k <;> simp_all

theorem loadProcessedIDs_round_trip_witness :
    ((∀ id ∈ [lit "18f0a", lit "18f0b"], Storable id) ∧
      [lit "18f0b", lit "18f0a"].Perm [lit "18f0a", lit "18f0b"]) ∧
    ((∀ k, loadProcessedIDs (some (recordAll [lit "18f0b", lit "18f0a"])) k = true ↔
        k ∈ [lit "18f0a", lit "18f0b"]) ∧
      loadProcessedIDs (some (recordAll [lit "18f0b", lit "18f0a"])) =
        loadProcessedIDs (some (recordAll [lit "18f0a", lit "18f0b"]))) :=
  ⟨⟨by decide, List.Perm.swap _ _ _⟩,
    loadProcessedIDs_round_trip [lit "18f0a", lit "18f0b"] [lit "18f0b", lit "18f0a"]
      (by decide) (List.Perm.swap _ _ _)⟩

/-- Claim C6 as stated fails for ids that are arbitrary strings: after the id `a\nb` is recorded
the loaded set does not hold it, and holds `a` and `b`, which were never recorded; an id ending
in `\r` is loaded without it; an id of 64 KiB is not loaded at all. -/
theorem loadProcessedIDs_newline_id :
    loadProcessedIDs (some (recordAll [lit "a\nb"])) (lit "a\nb") = false ∧
    loadProcessedIDs (some (recordAll [lit "a\nb"])) (lit "a") = true ∧
    loadProcessedIDs (some (recordAll [lit "a\nb"])) (lit "b") = true ∧
    loadProcessedIDs (some (recordAll [lit "a\r"])) (lit "a\r") = false ∧
    loadProcessedIDs (some (recordAll [lit "a\r"])) (lit "a") = true ∧
    loadProcessedIDs (some (recordAll [List.replicate maxScanTokenSize 97]))
      (List.replicate maxScanTokenSize 97) = false := by
  refine ⟨by decide, by decide, by decide, by decide, by decide, ?_⟩
  have h : scanLines [] (recordAll [List.replicate maxScanTokenSize 97]) = [] := by
    have := scanLines_long_line (List.replicate maxScanTokenSize 97)
      (by simp [List.mem_replicate]) [] [] (by simp)
    simpa [recordAll] using this
  simp [loadProcessedIDs, h]

end CalendarBot
